import Mathlib

/-!
Verification development for the SMPS task-manager framework
(`src/h/_root/config/task_manager_config.h` and the scheduler design it configures).

Machine integers are modelled as `Nat` with explicit reduction `% 2 ^ 16` where a
`(uint16_t)` cast occurs in the source.  The floating-point expressions of the header
(`(float)FCY * (float)TASK_MGR_TIME_STEP`, `((float)1000.0 / (float)P) * pow(2,16)`)
are modelled by their exact rational values, truncated toward zero as the C cast does.

The scheduler engine itself (dispatch loop, CPU load meter, profiler buffers) is not
present in the repository sources; those parts are modelled from the specification and
are marked `Modelled from the spec:` on each definition.
-/

namespace TaskMgr

/-! ## Timer period and CPU-load scale factor (task_manager_config.h, lines 127-128, 208) -/

/-- Source line 127-128: `TASK_MGR_TIME_STEP = 100.0e-6` seconds, so the untruncated
timer period for instruction clock `fcy` (in Hz) is `fcy * 100e-6 = fcy / 10000`,
truncated toward zero as the float-to-integer conversion does. -/
def TASK_MGR_PERIOD_raw (fcy : ℕ) : ℕ := fcy / 10000

/-- Source line 128: `#define TASK_MGR_PERIOD (uint16_t)((float)FCY * (float)TASK_MGR_TIME_STEP)`.
The `(uint16_t)` cast reduces the derived counter value modulo `2^16`. -/
def TASK_MGR_PERIOD (fcy : ℕ) : ℕ := TASK_MGR_PERIOD_raw fcy % 65536

/-- Source line 208: the untruncated scale factor `(1000.0 / period) * 2^16`,
i.e. `⌊65536000 / period⌋` over the exact rationals. -/
def TASK_MGR_CPU_LOAD_FACTOR_raw (period : ℕ) : ℕ := 65536000 / period

/-- Source line 208:
`#define TASK_MGR_CPU_LOAD_FACTOR (uint16_t)(((float)(1000.000)/(float)(TASK_MGR_PERIOD))*pow(2, 16))`.
The `(uint16_t)` cast reduces the value modulo `2^16`. -/
def TASK_MGR_CPU_LOAD_FACTOR (period : ℕ) : ℕ := TASK_MGR_CPU_LOAD_FACTOR_raw period % 65536

/-! ## Device-family conditional configuration (task_manager_config.h, lines 135-145, 184-206) -/

/-- The device subfamily selected by exactly one of the `__P33SMPS_xxx__` macros tested
in the header (lines 135-145), or `unsupported` when none of them is defined. -/
inductive Subfamily
  | CK1 | CK2 | CK5 | CH2 | CH5 | EP2 | EP5 | EP7 | FJ | FJA | FJC | unsupported
deriving DecidableEq, Fintype

/-- Source lines 135-145: the timer interrupt flag bit mask, selected by device
subfamily; `none` models the `#error` branch for unsupported devices. -/
def TASK_MGR_TIMER_ISR_FLAG_BIT_MASK : Subfamily → Option ℕ
  | .CK1 => some 2
  | .CK2 => some 2
  | .CK5 => some 2
  | .CH2 => some 2
  | .CH5 => some 2
  | .EP2 => some 8
  | .EP5 => some 8
  | .EP7 => some 8
  | .FJ => some 8
  | .FJA => some 8
  | .FJC => some 8
  | .unsupported => none

/-- Modelled from the spec: the device header `p33SMPS_devices.h` is not in the sources;
per its naming convention the family macro `__P33SMPS_CH__` (resp. `__P33SMPS_CK__`)
tested on line 184 is defined exactly when a CH (resp. CK) subfamily macro is. -/
def familyCHorCK : Subfamily → Bool
  | .CH2 => true
  | .CH5 => true
  | .CK1 => true
  | .CK2 => true
  | .CK5 => true
  | _ => false

/-- The six user-supplied code-optimization-level macros tested on lines 187-204. -/
structure OptFlags where
  opt0 : Bool
  opt1 : Bool
  opt2 : Bool
  optS : Bool
  opt3 : Bool
  optUSR : Bool
deriving DecidableEq, Fintype

/-- How many optimization-level macros are set. -/
def optCount (m : OptFlags) : ℕ :=
  (cond m.opt0 1 0) + (cond m.opt1 1 0) + (cond m.opt2 1 0) +
  (cond m.optS 1 0) + (cond m.opt3 1 0) + (cond m.optUSR 1 0)

/-- Source lines 184-206: the sequence of `#define TASK_MGR_CPU_LOAD_NOMBLK v`
directives the preprocessor emits, in textual order, for a given device subfamily and
set of optimization-level macros (28 at level 0, 20 at level 1, 23 at levels 2/s/3,
21 at the user level; nothing outside the CH/CK families). -/
def nomblkValueList (d : Subfamily) (m : OptFlags) : List ℕ :=
  if familyCHorCK d then
    (if m.opt0 then [28] else []) ++ (if m.opt1 then [20] else []) ++
    (if m.opt2 then [23] else []) ++ (if m.optS then [23] else []) ++
    (if m.opt3 then [23] else []) ++ (if m.optUSR then [21] else [])
  else []

/-- `TASK_MGR_CPU_LOAD_NOMBLK` ends up defined and the translation unit compiles:
at least one `#define` is emitted, and repeated `#define`s are benign only when all
replacement lists are identical (C11 6.10.3p2). -/
def nomblkDefined (d : Subfamily) (m : OptFlags) : Prop :=
  nomblkValueList d m ≠ [] ∧ (nomblkValueList d m).Pairwise (· = ·)

instance (d : Subfamily) (m : OptFlags) : Decidable (nomblkDefined d m) := by
  unfold nomblkDefined; infer_instance

/-! ## CPU Load Meter (modelled from the spec, section 4.3; no implementation in src) -/

/-- Modelled from the spec: the load percentage derived at a tick boundary,
`load% = 100 − (idle_count × cycles_per_iteration × 100) / cycles_per_period`,
clamped to `[0, 100]`.  The scheduler implementation is not in the sources. -/
def load_percent (idle cyclesPerIter cyclesPerPeriod : ℕ) : ℤ :=
  max 0 (min 100 (100 - (idle * cyclesPerIter * 100 : ℤ) / cyclesPerPeriod))

/-- Modelled from the spec: the `load()` query.  The calibration constant
(`TASK_MGR_CPU_LOAD_NOMBLK`) may be unset (`none`) or zero; in both cases the meter
reports the explicit uncalibrated sentinel `none` instead of a numeric percentage. -/
def load_query (calib : Option ℕ) (idle cyclesPerPeriod : ℕ) : Option ℤ :=
  match calib with
  | none => none
  | some 0 => none
  | some c => some (load_percent idle c cyclesPerPeriod)

/-! ## Dispatch loop and task registry (modelled from the spec, sections 3, 4.2, 5) -/

/-- Modelled from the spec: a task descriptor of the registry — period in ticks,
phase counter (ticks remaining until next due), and the enabled flag.  Callbacks are
opaque to the scheduler; an invocation is recorded by the task's registry index. -/
structure Task where
  period : ℕ
  phase : ℕ
  enabled : Bool
deriving DecidableEq

/-- Modelled from the spec: the scheduler state — the Tick Flag set by the timer
interrupt and cleared by the dispatch loop, the ordered task registry, and the
missed-tick (overrun) event counter of the runtime statistics. -/
structure SchedState where
  tickFlag : Bool
  tasks : List Task
  missedTicks : ℕ
deriving DecidableEq

/-- Modelled from the spec: the per-task work of one dispatch pass — a disabled task
is excluded entirely; an enabled task's phase counter is decremented, and when it
reaches zero it is reset to the task's period and the callback is invoked (`true`). -/
def stepTask (t : Task) : Task × Bool :=
  if t.enabled then
    if t.phase - 1 = 0 then ({ t with phase := t.period }, true)
    else ({ t with phase := t.phase - 1 }, false)
  else (t, false)

/-- The updated descriptor after one dispatch pass. -/
def step1 (t : Task) : Task := (stepTask t).1

/-- Modelled from the spec: the dispatch walk over the registry tail starting at
registry index `i`; returns the updated descriptors and the indices of the invoked
callbacks in walk (= registration) order. -/
def dispatchFrom (i : ℕ) : List Task → List Task × List ℕ
  | [] => ([], [])
  | t :: ts =>
    let r := stepTask t
    let rest := dispatchFrom (i + 1) ts
    (r.1 :: rest.1, if r.2 then i :: rest.2 else rest.2)

/-- Modelled from the spec: `run_once()`.  When the Tick Flag is set it is cleared,
the registry is walked once, and the invocation log is returned.  When the flag is
clear the real code spins (idle measurement) without dispatching; the model returns
the state unchanged with an empty log, representing that no dispatch occurs before
the next tick. -/
def run_once (s : SchedState) : SchedState × List ℕ :=
  if s.tickFlag then
    let r := dispatchFrom 0 s.tasks
    ({ s with tickFlag := false, tasks := r.1 }, r.2)
  else (s, [])

/-- Modelled from the spec: the timer interrupt handler.  It sets the Tick Flag; if
the flag is still set from the previous period (overrun), the missed tick is counted
in the statistics instead of being silently lost. -/
def isrTick (s : SchedState) : SchedState :=
  if s.tickFlag then { s with missedTicks := s.missedTicks + 1 }
  else { s with tickFlag := true }

/-- Modelled from the spec: run `n` full tick periods (interrupt, then one
`run_once` dispatch each); returns the final state and the per-tick invocation
logs in chronological order. -/
def runTicks : SchedState → ℕ → SchedState × List (List ℕ)
  | s, 0 => (s, [])
  | s, n + 1 =>
    let r := run_once (isrTick s)
    let rest := runTicks r.1 n
    (rest.1, r.2 :: rest.2)

/-- Replace the descriptor at registry index `i` by `f` applied to it. -/
def updateTask : List Task → ℕ → (Task → Task) → List Task
  | [], _, _ => []
  | t :: ts, 0, f => f t :: ts
  | t :: ts, n + 1, f => t :: updateTask ts n f

/-- Modelled from the spec: re-enabling a task restarts its period cleanly from
re-enable time — the phase counter is reloaded with the full period. -/
def enable_task (s : SchedState) (i : ℕ) : SchedState :=
  { s with tasks := updateTask s.tasks i fun t => { t with enabled := true, phase := t.period } }

/-- Modelled from the spec: disabling a task clears its enabled flag; the descriptor
is otherwise untouched. -/
def disable_task (s : SchedState) (i : ℕ) : SchedState :=
  { s with tasks := updateTask s.tasks i fun t => { t with enabled := false } }

/-- A freshly registered registry: each task enabled, phase loaded with its period. -/
def freshTasks (ps : List ℕ) : List Task := ps.map fun p => ⟨p, p, true⟩

/-- The scheduler state right after registration, before the first tick. -/
def freshState (ps : List ℕ) : SchedState := ⟨false, freshTasks ps, 0⟩

/-- The scheduler state after one full tick period: interrupt, then one dispatch. -/
def stepState (s : SchedState) : SchedState := (run_once (isrTick s)).1

/-- The invocation log of the next tick period from state `s`. -/
def logOf (s : SchedState) : List ℕ := (run_once (isrTick s)).2

/-- Number of ticks, among the first `n` after state `s`, in which the callback of
registry index `i` is invoked. -/
def fireCount (s : SchedState) (n : ℕ) (i : ℕ) : ℕ :=
  (runTicks s n).2.countP fun l => i ∈ l

/-- Least common multiple of a list of periods. -/
def lcmList (ps : List ℕ) : ℕ := ps.foldr Nat.lcm 1

/-! ## Execution-time history buffer (modelled from the spec, section 4.4, and the
src comment at task_manager_config.h lines 90-95: the arrays are filled from index 0
to n, roll over, and continue to add data from index 0) -/

/-- Modelled from the spec: a fixed-capacity circular history buffer — the backing
array and the rolling write index. -/
structure HistoryBuffer where
  data : List ℕ
  idx : ℕ
deriving DecidableEq

/-- A fresh buffer of capacity `C`, zero-initialized, write index at 0. -/
def emptyBuf (C : ℕ) : HistoryBuffer := ⟨List.replicate C 0, 0⟩

/-- Modelled from the spec: recording one sample overwrites the slot at the write
index and advances the index, rolling over to 0 at the end of the array; recording
is total — no error is raised on overwrite. -/
def pushSample (b : HistoryBuffer) (x : ℕ) : HistoryBuffer :=
  ⟨b.data.set b.idx x, (b.idx + 1) % b.data.length⟩

/-- Record a whole sequence of samples in order. -/
def pushAll (b : HistoryBuffer) (xs : List ℕ) : HistoryBuffer := xs.foldl pushSample b

/-- The buffer contents in chronological order, oldest first: the slots from the
write index to the end of the array, then the slots before the write index. -/
def chron (b : HistoryBuffer) : List ℕ := b.data.drop b.idx ++ b.data.take b.idx

/-! ## Claim C3: load percentage formula, idle = 0, and clamping bounds -/

/-- C3: at a tick boundary the reported load percentage equals
`100 − (idle_count × cycles_per_iteration × 100) / cycles_per_period` clamped to
`[0, 100]`; `idle_count = 0` yields exactly 100, and the result never exceeds 100
nor goes negative. -/
theorem C3_load_percent_formula (idle c p : ℕ) (hp : 0 < p) :
    load_percent idle c p = max 0 (min 100 (100 - (idle * c * 100 : ℤ) / p)) ∧
    load_percent 0 c p = 100 ∧
    0 ≤ load_percent idle c p ∧ load_percent idle c p ≤ 100 := by
  refine ⟨rfl, ?_, le_max_left _ _, ?_⟩
  · unfold load_percent
    norm_num
  · unfold load_percent
    refine max_le (by norm_num) (min_le_left _ _)

theorem C3_load_percent_formula_witness :
    load_percent 0 20 7000 = 100 ∧ 0 ≤ load_percent 1000 20 7000 ∧
      load_percent 1000 20 7000 ≤ 100 :=
  ⟨(C3_load_percent_formula 0 20 7000 (by norm_num)).2.1,
   (C3_load_percent_formula 1000 20 7000 (by norm_num)).2.2.1,
   (C3_load_percent_formula 1000 20 7000 (by norm_num)).2.2.2⟩

/-! ## Claim C5: uncalibrated sentinel -/

/-- C5: with the calibration constant unset (`none`) or zero, the load query
returns the explicit uncalibrated sentinel `none`, which is distinct from every
numeric percentage `some n`; with a nonzero constant it returns a numeric
percentage. -/
theorem C5_uncalibrated_sentinel :
    (∀ idle p, load_query none idle p = none) ∧
    (∀ idle p, load_query (some 0) idle p = none) ∧
    (∀ idle p n, load_query none idle p ≠ some n) ∧
    (∀ idle p c, load_query (some (c + 1)) idle p = some (load_percent idle (c + 1) p)) := by
  refine ⟨fun _ _ => rfl, fun _ _ => rfl, ?_, fun _ _ _ => rfl⟩
  intro idle p n h
  exact Option.noConfusion h

/-! ## Claim C4: silent truncation of an out-of-range timer period -/

/-- C4 (refuting evaluation): at `FCY = 10^10` Hz the derived counter value for the
configured 100 µs time step is `10^6`, which exceeds the 16-bit counter width
(65535), yet `TASK_MGR_PERIOD` silently reduces it to `16960` — it differs from the
derived value and no configuration error exists at this point in the sources. -/
theorem C4_period_silent_truncation :
    TASK_MGR_PERIOD_raw 10000000000 = 1000000 ∧
    65535 < TASK_MGR_PERIOD_raw 10000000000 ∧
    TASK_MGR_PERIOD 10000000000 = 16960 ∧
    TASK_MGR_PERIOD 10000000000 ≠ TASK_MGR_PERIOD_raw 10000000000 := by
  refine ⟨rfl, by norm_num [TASK_MGR_PERIOD_raw], rfl, by norm_num [TASK_MGR_PERIOD, TASK_MGR_PERIOD_raw]⟩

/-! ## Claim C9: the CPU-load scale factor wraps at 2^16 -/

/-- C9: for every period value `0 < P ≤ 1000` the untruncated scale factor
`(1000/P)·2^16` is at least `2^16`, so the `(uint16_t)` cast in
`TASK_MGR_CPU_LOAD_FACTOR` reduces it modulo `2^16`; in particular the period
`P = 1000` (obtained from `FCY = 10 MHz` with the 100 µs step) yields a scale
factor of exactly 0 although the period itself is valid and nonzero. -/
theorem C9_load_factor_wraps (P : ℕ) (h0 : 0 < P) (h1 : P ≤ 1000) :
    TASK_MGR_CPU_LOAD_FACTOR P = TASK_MGR_CPU_LOAD_FACTOR_raw P % 65536 ∧
    65536 ≤ TASK_MGR_CPU_LOAD_FACTOR_raw P ∧
    TASK_MGR_PERIOD 10000000 = 1000 ∧
    TASK_MGR_CPU_LOAD_FACTOR 1000 = 0 ∧ (1000 : ℕ) ≠ 0 := by
  refine ⟨rfl, ?_, rfl, rfl, by norm_num⟩
  have h : 65536000 / 1000 ≤ 65536000 / P := Nat.div_le_div_left h1 h0
  simpa [TASK_MGR_CPU_LOAD_FACTOR_raw] using h

theorem C9_load_factor_wraps_witness :
    TASK_MGR_CPU_LOAD_FACTOR 500 = TASK_MGR_CPU_LOAD_FACTOR_raw 500 % 65536 ∧
    65536 ≤ TASK_MGR_CPU_LOAD_FACTOR_raw 500 :=
  ⟨(C9_load_factor_wraps 500 (by norm_num) (by norm_num)).1,
   (C9_load_factor_wraps 500 (by norm_num) (by norm_num)).2.1⟩

/-! ## Claim C10: when the calibration constant is defined -/

/-- C10 (counterexample): with the dsPIC33CH subfamily and both optimization-level
macros `__CODE_OPT_LEVEL_2__` and `__CODE_OPT_LEVEL_s__` set (they map to the same
cycle count 23), `TASK_MGR_CPU_LOAD_NOMBLK` is defined and the translation unit is
accepted, yet the number of set optimization-level macros is 2, not 1 — refuting
the claim that definedness requires exactly one optimization-level macro. -/
theorem C10_exactly_one_counterexample :
    nomblkDefined Subfamily.CH2 ⟨false, false, true, true, false, false⟩ ∧
    optCount ⟨false, false, true, true, false, false⟩ = 2 := by
  decide

set_option synthInstance.maxSize 4000 in
/-- C10 (amended): `TASK_MGR_CPU_LOAD_NOMBLK` is defined (with the translation unit
accepted) iff the device family is dsPIC33CH or dsPIC33CK, at least one
optimization-level macro is set, and all set macros specify the same cycle count —
equivalently, each of the macros for levels 0, 1 and USR (values 28, 20, 21)
excludes every other macro, while levels 2, s and 3 (all value 23) may be combined;
and for the EP and FJ subfamilies, which the timer-interrupt flag-mask configuration
supports, no calibration constant is defined for any optimization level. -/
theorem C10_nomblk_defined_iff :
    (∀ (d : Subfamily) (m : OptFlags),
      nomblkDefined d m ↔
        (familyCHorCK d = true ∧ 1 ≤ optCount m ∧
         (m.opt0 = true → m.opt1 = false ∧ m.opt2 = false ∧ m.optS = false ∧
            m.opt3 = false ∧ m.optUSR = false) ∧
         (m.opt1 = true → m.opt0 = false ∧ m.opt2 = false ∧ m.optS = false ∧
            m.opt3 = false ∧ m.optUSR = false) ∧
         (m.optUSR = true → m.opt0 = false ∧ m.opt1 = false ∧ m.opt2 = false ∧
            m.optS = false ∧ m.opt3 = false))) ∧
    (∀ (d : Subfamily) (m : OptFlags),
      (d = Subfamily.EP2 ∨ d = Subfamily.EP5 ∨ d = Subfamily.EP7 ∨
       d = Subfamily.FJ ∨ d = Subfamily.FJA ∨ d = Subfamily.FJC) →
      TASK_MGR_TIMER_ISR_FLAG_BIT_MASK d ≠ none ∧ nomblkValueList d m = []) := by
  constructor
  · decide
  · decide

theorem C10_nomblk_defined_iff_witness :
    TASK_MGR_TIMER_ISR_FLAG_BIT_MASK Subfamily.EP2 ≠ none ∧
    nomblkValueList Subfamily.EP2 ⟨true, false, false, false, false, false⟩ = [] :=
  C10_nomblk_defined_iff.2 Subfamily.EP2 ⟨true, false, false, false, false, false⟩
    (Or.inl rfl)

/-! ## Dispatch-loop lemmas -/

lemma step1_of_disabled (t : Task) (h : t.enabled = false) : step1 t = t := by
  simp [step1, stepTask, h]

lemma step1_of_due (t : Task) (he : t.enabled = true) (hd : t.phase - 1 = 0) :
    step1 t = { t with phase := t.period } := by
  simp [step1, stepTask, he, hd]

lemma step1_of_not_due (t : Task) (he : t.enabled = true) (hd : t.phase - 1 ≠ 0) :
    step1 t = { t with phase := t.phase - 1 } := by
  simp [step1, stepTask, he, hd]

lemma stepTask_snd (t : Task) :
    (stepTask t).2 = true ↔ t.enabled = true ∧ t.phase - 1 = 0 := by
  by_cases he : t.enabled <;> by_cases hd : t.phase - 1 = 0 <;> simp [stepTask, he, hd]

lemma dispatchFrom_fst (k : ℕ) (ts : List Task) :
    (dispatchFrom k ts).1 = ts.map step1 := by
  induction ts generalizing k with
  | nil => rfl
  | cons t ts ih => simp [dispatchFrom, step1, ih]

lemma dispatchFrom_mem_log (k : ℕ) (ts : List Task) (j : ℕ) :
    j ∈ (dispatchFrom k ts).2 ↔
      ∃ i, ∃ h : i < ts.length, j = k + i ∧ (stepTask (ts.get ⟨i, h⟩)).2 = true := by
  induction ts generalizing k with
  | nil => simp [dispatchFrom]
  | cons t ts ih =>
    by_cases hf : (stepTask t).2 = true
    · simp only [dispatchFrom, hf, if_pos, List.mem_cons, ih (k + 1)]
      constructor
      · rintro (rfl | ⟨i, h, rfl, hfi⟩)
        · exact ⟨0, by simp, by simp, by simpa using hf⟩
        · refine ⟨i + 1, by simpa using h, by omega, by simpa using hfi⟩
      · rintro ⟨i, h, rfl, hfi⟩
        cases i with
        | zero => exact Or.inl (by simp)
        | succ i =>
          exact Or.inr ⟨i, by simpa using h, by omega, by simpa using hfi⟩
    · simp only [dispatchFrom, hf, if_neg, Bool.false_eq_true, ite_false, ih (k + 1)]
      constructor
      · rintro ⟨i, h, rfl, hfi⟩
        refine ⟨i + 1, by simpa using h, by omega, by simpa using hfi⟩
      · rintro ⟨i, h, rfl, hfi⟩
        cases i with
        | zero => exact absurd (by simpa using hfi) hf
        | succ i =>
          exact ⟨i, by simpa using h, by omega, by simpa using hfi⟩

lemma dispatchFrom_log_lb (k : ℕ) (ts : List Task) :
    ∀ j ∈ (dispatchFrom k ts).2, k ≤ j := by
  intro j hj
  rcases (dispatchFrom_mem_log k ts j).1 hj with ⟨i, h, rfl, _⟩
  omega

lemma dispatchFrom_log_sorted (k : ℕ) (ts : List Task) :
    ((dispatchFrom k ts).2).Pairwise (· < ·) := by
  induction ts generalizing k with
  | nil => simp [dispatchFrom]
  | cons t ts ih =>
    by_cases hf : (stepTask t).2 = true
    · simp only [dispatchFrom, hf, if_pos]
      refine List.Pairwise.cons ?_ (ih (k + 1))
      intro j hj
      have := dispatchFrom_log_lb (k + 1) ts j hj
      omega
    · simp only [dispatchFrom, hf, Bool.false_eq_true, ite_false]
      exact ih (k + 1)

lemma run_once_of_tick (s : SchedState) (hs : s.tickFlag = true) :
    run_once s =
      ({ s with tickFlag := false, tasks := s.tasks.map step1 },
       (dispatchFrom 0 s.tasks).2) := by
  simp [run_once, hs, dispatchFrom_fst]

lemma run_once_of_no_tick (s : SchedState) (hs : s.tickFlag = false) :
    run_once s = (s, []) := by
  simp [run_once, hs]

lemma run_once_missedTicks (s : SchedState) :
    (run_once s).1.missedTicks = s.missedTicks := by
  by_cases hs : s.tickFlag
  · rw [run_once_of_tick s hs]
  · rw [run_once_of_no_tick s (by simpa using hs)]

lemma run_once_mem_log (s : SchedState) (j : ℕ) :
    j ∈ (run_once s).2 →
      ∃ h : j < s.tasks.length,
        (s.tasks.get ⟨j, h⟩).enabled = true ∧ (s.tasks.get ⟨j, h⟩).phase - 1 = 0 := by
  intro hj
  by_cases hs : s.tickFlag
  · rw [run_once_of_tick s hs] at hj
    rcases (dispatchFrom_mem_log 0 s.tasks j).1 hj with ⟨i, h, hji, hfi⟩
    have hij : i = j := by omega
    subst hij
    exact ⟨h, (stepTask_snd _).1 hfi⟩
  · rw [run_once_of_no_tick s (by simpa using hs)] at hj
    simp at hj

lemma isrTick_tasks (s : SchedState) : (isrTick s).tasks = s.tasks := by
  by_cases h : s.tickFlag <;> simp [isrTick, h]

lemma isrTick_flag (s : SchedState) : (isrTick s).tickFlag = true := by
  by_cases h : s.tickFlag <;> simp [isrTick, h]

lemma stepState_tasks (s : SchedState) : (stepState s).tasks = s.tasks.map step1 := by
  rw [stepState, run_once_of_tick _ (isrTick_flag s), isrTick_tasks]

lemma logOf_eq (s : SchedState) : logOf s = (dispatchFrom 0 s.tasks).2 := by
  rw [logOf, run_once_of_tick _ (isrTick_flag s), isrTick_tasks]

/-! ## Claim C1: the run_once contract -/

/-- C1: when the Tick Flag is set, `run_once` clears it (and only it — the overrun
counter is untouched), performs one dispatch pass over the registry (`step1` on each
descriptor: disabled tasks untouched; enabled tasks' phase counters decremented;
those reaching zero reloaded with their period), invokes exactly the due enabled
tasks, and the invocation log is strictly increasing in registry index — strict
registration order for simultaneously-due tasks. -/
theorem C1_run_once_contract (s : SchedState) (hs : s.tickFlag = true) :
    (run_once s).1.tickFlag = false ∧
    (run_once s).1.missedTicks = s.missedTicks ∧
    (run_once s).1.tasks = s.tasks.map step1 ∧
    (∀ t : Task, t.enabled = false → step1 t = t) ∧
    (∀ t : Task, t.enabled = true → t.phase - 1 = 0 →
      step1 t = { t with phase := t.period }) ∧
    (∀ t : Task, t.enabled = true → t.phase - 1 ≠ 0 →
      step1 t = { t with phase := t.phase - 1 }) ∧
    (∀ j, j ∈ (run_once s).2 ↔
      ∃ h : j < s.tasks.length,
        (s.tasks.get ⟨j, h⟩).enabled = true ∧ (s.tasks.get ⟨j, h⟩).phase - 1 = 0) ∧
    ((run_once s).2).Pairwise (· < ·) := by
  refine ⟨by rw [run_once_of_tick s hs], run_once_missedTicks s,
    by rw [run_once_of_tick s hs], step1_of_disabled, step1_of_due, step1_of_not_due,
    ?_, ?_⟩
  · intro j
    constructor
    · exact run_once_mem_log s j
    · rintro ⟨h, he, hd⟩
      rw [run_once_of_tick s hs]
      exact (dispatchFrom_mem_log 0 s.tasks j).2
        ⟨j, h, by omega, (stepTask_snd _).2 ⟨he, hd⟩⟩
  · rw [run_once_of_tick s hs]
    exact dispatchFrom_log_sorted 0 s.tasks

theorem C1_run_once_contract_witness :
    (run_once ⟨true, [⟨2, 1, true⟩, ⟨3, 2, true⟩], 0⟩).1.tickFlag = false ∧
    (run_once ⟨true, [⟨2, 1, true⟩, ⟨3, 2, true⟩], 0⟩).2.Pairwise (· < ·) :=
  ⟨(C1_run_once_contract ⟨true, [⟨2, 1, true⟩, ⟨3, 2, true⟩], 0⟩ rfl).1,
   (C1_run_once_contract ⟨true, [⟨2, 1, true⟩, ⟨3, 2, true⟩], 0⟩ rfl).2.2.2.2.2.2.2⟩

/-! ## Claim C8: overrun ticks are counted, never replayed -/

/-- C8: a timer interrupt arriving while the Tick Flag is still set is recorded as a
missed-tick event (the overrun counter is incremented, the flag stays set — nothing
is silently lost); `run_once` never touches the overrun counter, advances every
phase counter by exactly one dispatch pass (no multi-tick catch-up), and its
invocation log contains only the tasks due at the tick it observes. -/
theorem C8_overrun_counted (s : SchedState) (hs : s.tickFlag = true) :
    isrTick s = { s with missedTicks := s.missedTicks + 1 } ∧
    (isrTick s).tickFlag = true ∧
    (∀ u : SchedState, (run_once u).1.missedTicks = u.missedTicks) ∧
    (run_once s).1.tasks = s.tasks.map step1 ∧
    (∀ u : SchedState, ∀ j, j ∈ (run_once u).2 →
      ∃ h : j < u.tasks.length,
        (u.tasks.get ⟨j, h⟩).enabled = true ∧ (u.tasks.get ⟨j, h⟩).phase - 1 = 0) := by
  refine ⟨by simp [isrTick, hs], isrTick_flag s, run_once_missedTicks,
    by rw [run_once_of_tick s hs], run_once_mem_log⟩

theorem C8_overrun_counted_witness :
    isrTick ⟨true, [], 3⟩ = ⟨true, [], 4⟩ :=
  (C8_overrun_counted ⟨true, [], 3⟩ rfl).1

/-! ## Tick-iteration lemmas -/

lemma runTicks_snd_cons (s : SchedState) (n : ℕ) :
    (runTicks s (n + 1)).2 = logOf s :: (runTicks (stepState s) n).2 := rfl

lemma stepState_tasks_iterate (s : SchedState) (n : ℕ) :
    (stepState^[n] s).tasks = s.tasks.map step1^[n] := by
  induction n with
  | zero => simp
  | succ n ih =>
    rw [Function.iterate_succ_apply', stepState_tasks, ih, List.map_map,
      ← Function.iterate_succ' step1 n]

lemma succ_mod_eq_zero_iff (t p : ℕ) (hp : 0 < p) :
    (t + 1) % p = 0 ↔ t % p = p - 1 := by
  have h3 : t % p < p := Nat.mod_lt t hp
  have h2 : (t + 1) % p = (t % p + 1) % p := (Nat.mod_add_mod t p 1).symm
  constructor
  · intro h
    by_cases hc : t % p + 1 = p
    · omega
    · rw [h2, Nat.mod_eq_of_lt (by omega)] at h
      omega
  · intro hc
    rw [h2, show t % p + 1 = p from by omega, Nat.mod_self]

lemma step1_iterate_fresh (p : ℕ) (hp : 0 < p) (t : ℕ) :
    step1^[t] ⟨p, p, true⟩ = ⟨p, p - t % p, true⟩ := by
  induction t with
  | zero => simp
  | succ t ih =>
    rw [Function.iterate_succ_apply', ih]
    have h3 : t % p < p := Nat.mod_lt t hp
    by_cases hc : t % p = p - 1
    · have h2 : (t + 1) % p = 0 := (succ_mod_eq_zero_iff t p hp).2 hc
      rw [step1_of_due _ rfl (by show p - t % p - 1 = 0; omega)]
      simp [h2]
    · have h2 : (t + 1) % p = t % p + 1 := by
        rw [← Nat.mod_add_mod]
        exact Nat.mod_eq_of_lt (by omega)
      rw [step1_of_not_due _ rfl (by show p - t % p - 1 ≠ 0; omega)]
      simp only [h2, Task.mk.injEq]
      exact ⟨trivial, by omega, trivial⟩

lemma mem_logOf (s : SchedState) (i : ℕ) :
    i ∈ logOf s ↔ ∃ h : i < s.tasks.length, (stepTask (s.tasks.get ⟨i, h⟩)).2 = true := by
  rw [logOf_eq, dispatchFrom_mem_log]
  constructor
  · rintro ⟨j, h, hij, hf⟩
    have : j = i := by omega
    subst this
    exact ⟨h, hf⟩
  · rintro ⟨h, hf⟩
    exact ⟨i, h, by omega, hf⟩

lemma stepState_iterate_get_of (s : SchedState) (t i : ℕ) (h : i < s.tasks.length)
    (hh : i < (stepState^[t] s).tasks.length) :
    (stepState^[t] s).tasks.get ⟨i, hh⟩ = step1^[t] (s.tasks.get ⟨i, h⟩) := by
  simp [List.get_eq_getElem, stepState_tasks_iterate, List.getElem_map]

lemma fires_iff_of_task (s : SchedState) (i : ℕ) (h : i < s.tasks.length) (p : ℕ)
    (hp : 0 < p) (hget : s.tasks.get ⟨i, h⟩ = ⟨p, p, true⟩) (t : ℕ) :
    i ∈ logOf (stepState^[t] s) ↔ (t + 1) % p = 0 := by
  have hlen : (stepState^[t] s).tasks.length = s.tasks.length := by
    rw [stepState_tasks_iterate]
    simp
  have h3 : t % p < p := Nat.mod_lt t hp
  rw [mem_logOf]
  constructor
  · rintro ⟨hh, hf⟩
    rw [stepState_iterate_get_of s t i h hh, hget, step1_iterate_fresh p hp] at hf
    have hd : p - t % p - 1 = 0 := ((stepTask_snd _).1 hf).2
    exact (succ_mod_eq_zero_iff t p hp).2 (by omega)
  · intro hmod
    have h4 := (succ_mod_eq_zero_iff t p hp).1 hmod
    have hh : i < (stepState^[t] s).tasks.length := by omega
    refine ⟨hh, ?_⟩
    rw [stepState_iterate_get_of s t i h hh, hget, step1_iterate_fresh p hp, stepTask_snd]
    exact ⟨rfl, by show p - t % p - 1 = 0; omega⟩

lemma fires_iff_fresh (ps : List ℕ) (hpos : ∀ p ∈ ps, 0 < p) (t i : ℕ)
    (h : i < ps.length) :
    i ∈ logOf (stepState^[t] (freshState ps)) ↔ (t + 1) % ps.get ⟨i, h⟩ = 0 := by
  have hp : 0 < ps.get ⟨i, h⟩ := hpos _ (ps.get_mem i h)
  have hlen : i < (freshState ps).tasks.length := by
    simpa [freshState, freshTasks] using h
  refine fires_iff_of_task (freshState ps) i hlen _ hp ?_ t
  simp [freshState, freshTasks, List.get_eq_getElem, List.getElem_map]

lemma fireCount_aux (ps : List ℕ) (hpos : ∀ p ∈ ps, 0 < p) (i : ℕ) (h : i < ps.length) :
    ∀ T t : ℕ,
      t / ps.get ⟨i, h⟩ + fireCount (stepState^[t] (freshState ps)) T i
        = (t + T) / ps.get ⟨i, h⟩ := by
  intro T
  induction T with
  | zero =>
    intro t
    simp [fireCount, runTicks]
  | succ T ih =>
    intro t
    have hcons := runTicks_snd_cons (stepState^[t] (freshState ps)) T
    rw [fireCount, hcons, List.countP_cons]
    have hstep : stepState (stepState^[t] (freshState ps))
        = stepState^[t + 1] (freshState ps) :=
      (Function.iterate_succ_apply' stepState t (freshState ps)).symm
    rw [hstep]
    have hrest := ih (t + 1)
    rw [fireCount] at hrest
    have hfi := fires_iff_fresh ps hpos t i h
    have hrw : t + (T + 1) = t + 1 + T := by omega
    rw [hrw]
    by_cases hf : (t + 1) % ps.get ⟨i, h⟩ = 0
    · have hmem : i ∈ logOf (stepState^[t] (freshState ps)) := hfi.2 hf
      have hsd : (t + 1) / ps.get ⟨i, h⟩ = t / ps.get ⟨i, h⟩ + 1 :=
        Nat.succ_div_of_dvd (Nat.dvd_iff_mod_eq_zero.mpr hf)
      have hdec : decide (i ∈ logOf (stepState^[t] (freshState ps))) = true :=
        decide_eq_true hmem
      simp only [hdec, if_pos]
      omega
    · have hmem : i ∉ logOf (stepState^[t] (freshState ps)) := fun hm => hf (hfi.1 hm)
      have hsd : (t + 1) / ps.get ⟨i, h⟩ = t / ps.get ⟨i, h⟩ :=
        Nat.succ_div_of_not_dvd (fun hd => hf (Nat.dvd_iff_mod_eq_zero.mp hd))
      have hdec : decide (i ∈ logOf (stepState^[t] (freshState ps))) = false :=
        decide_eq_false hmem
      simp only [hdec, Bool.false_eq_true, ite_false]
      omega

lemma runTicks_logs_sorted (T : ℕ) :
    ∀ (s : SchedState), ∀ l ∈ (runTicks s T).2, l.Pairwise (· < ·) := by
  induction T with
  | zero =>
    intro s l hl
    simp [runTicks] at hl
  | succ T ih =>
    intro s l hl
    rw [runTicks_snd_cons] at hl
    rcases List.mem_cons.1 hl with rfl | hl2
    · rw [logOf_eq]
      exact dispatchFrom_log_sorted 0 s.tasks
    · exact ih (stepState s) l hl2

/-! ## Claim C2: lcm-round invocation counts and the 2/3-period scenario -/

/-- C2: for a freshly registered registry of enabled tasks with positive, pairwise
distinct periods, running the dispatch loop for `lcm(periods)` ticks invokes task `i`
exactly `lcm(periods) / period_i` times; every per-tick invocation log is strictly
increasing in registry index (earlier-registered tasks run first when simultaneously
due); and with periods 2 and 3 over 6 ticks, task A fires at ticks 2, 4, 6, task B at
ticks 3, 6, and at tick 6 A runs before B. -/
theorem C2_lcm_schedule :
    (∀ ps : List ℕ, (∀ p ∈ ps, 0 < p) → ps.Pairwise (· ≠ ·) →
      ∀ i, ∀ h : i < ps.length,
        fireCount (freshState ps) (lcmList ps) i = lcmList ps / ps.get ⟨i, h⟩) ∧
    (∀ (s : SchedState) (T : ℕ), ∀ l ∈ (runTicks s T).2, l.Pairwise (· < ·)) ∧
    (runTicks (freshState [2, 3]) 6).2 = [[], [0], [1], [0], [], [0, 1]] := by
  refine ⟨?_, fun s T => runTicks_logs_sorted T s, by decide⟩
  intro ps hpos _hdist i h
  have := fireCount_aux ps hpos i h (lcmList ps) 0
  simpa using this

theorem C2_lcm_schedule_witness :
    fireCount (freshState [2, 3]) (lcmList [2, 3]) 0 = 3 ∧
    fireCount (freshState [2, 3]) (lcmList [2, 3]) 1 = 2 := by
  have h0 := C2_lcm_schedule.1 [2, 3] (by decide) (by decide) 0 (by decide)
  have h1 := C2_lcm_schedule.1 [2, 3] (by decide) (by decide) 1 (by decide)
  constructor
  · rw [h0]; decide
  · rw [h1]; decide

/-! ## Claim C6: disabled tasks are frozen; re-enabling restarts the full period -/

lemma updateTask_length (ts : List Task) (i : ℕ) (f : Task → Task) :
    (updateTask ts i f).length = ts.length := by
  induction ts generalizing i with
  | nil => rfl
  | cons t ts ih =>
    cases i with
    | zero => rfl
    | succ i => simp [updateTask, ih]

lemma updateTask_get_self (ts : List Task) (i : ℕ) (f : Task → Task)
    (h : i < ts.length) (hh : i < (updateTask ts i f).length) :
    (updateTask ts i f).get ⟨i, hh⟩ = f (ts.get ⟨i, h⟩) := by
  induction ts generalizing i with
  | nil => exact absurd h (by simp)
  | cons t ts ih =>
    cases i with
    | zero => rfl
    | succ i =>
      simp only [updateTask, List.get_cons_succ]
      exact ih i (by simpa using h) (by simpa [updateTask_length] using hh)

lemma enable_task_get (s : SchedState) (i : ℕ) (h : i < s.tasks.length)
    (hh : i < (enable_task s i).tasks.length) :
    (enable_task s i).tasks.get ⟨i, hh⟩
      = ⟨(s.tasks.get ⟨i, h⟩).period, (s.tasks.get ⟨i, h⟩).period, true⟩ := by
  show (updateTask s.tasks i _).get ⟨i, hh⟩ = _
  rw [updateTask_get_self s.tasks i _ h hh]

/-- C6: a `run_once` call leaves a disabled task's descriptor (in particular its
phase counter) completely unchanged; re-enabling a task reloads its phase counter
with the full period regardless of the remainder it held when disabled, and from the
re-enable point the task fires exactly on multiples of its period (`tick t + 1` iff
`period ∣ t + 1`) — its countdown restarts from the full period at re-enable time,
not from the pre-disable remainder. -/
theorem C6_disable_reenable :
    (∀ (s : SchedState) (i : ℕ) (h : i < s.tasks.length)
        (h2 : i < (run_once s).1.tasks.length),
      (s.tasks.get ⟨i, h⟩).enabled = false →
      (run_once s).1.tasks.get ⟨i, h2⟩ = s.tasks.get ⟨i, h⟩) ∧
    (∀ (s : SchedState) (i : ℕ) (h : i < s.tasks.length)
        (h2 : i < (enable_task s i).tasks.length),
      (enable_task s i).tasks.get ⟨i, h2⟩
        = ⟨(s.tasks.get ⟨i, h⟩).period, (s.tasks.get ⟨i, h⟩).period, true⟩) ∧
    (∀ (s : SchedState) (i : ℕ) (h : i < s.tasks.length),
      0 < (s.tasks.get ⟨i, h⟩).period →
      ∀ t : ℕ,
        (i ∈ logOf (stepState^[t] (enable_task s i)) ↔
          (t + 1) % (s.tasks.get ⟨i, h⟩).period = 0)) := by
  refine ⟨?_, enable_task_get, ?_⟩
  · intro s i h h2 hdis
    by_cases hs : s.tickFlag
    · simp only [List.get_eq_getElem]
      simp only [run_once_of_tick s hs]
      simp only [List.getElem_map]
      have := step1_of_disabled (s.tasks.get ⟨i, h⟩) hdis
      simpa [List.get_eq_getElem] using this
    · simp only [List.get_eq_getElem]
      simp only [run_once_of_no_tick s (by simpa using hs)]
  · intro s i h hp t
    have hlen : i < (enable_task s i).tasks.length := by
      show i < (updateTask s.tasks i _).length
      rw [updateTask_length]
      exact h
    exact fires_iff_of_task (enable_task s i) i hlen _ hp
      (enable_task_get s i h hlen) t

theorem C6_disable_reenable_witness :
    (run_once ⟨true, [⟨5, 2, false⟩], 0⟩).1.tasks.get ⟨0, by decide⟩
        = (⟨5, 2, false⟩ : Task) ∧
    (0 ∈ logOf (stepState^[4] (enable_task ⟨true, [⟨5, 2, false⟩], 0⟩ 0))) :=
  ⟨C6_disable_reenable.1 ⟨true, [⟨5, 2, false⟩], 0⟩ 0 (by decide) (by decide) rfl,
   (C6_disable_reenable.2.2 ⟨true, [⟨5, 2, false⟩], 0⟩ 0 (by decide) (by decide) 4).mpr
     (by decide)⟩

/-! ## Claim C7: the circular history buffer keeps the most recent C samples -/

lemma chron_length (b : HistoryBuffer) : (chron b).length = b.data.length := by
  simp only [chron, List.length_append, List.length_drop, List.length_take]
  omega

lemma chron_push (d : List ℕ) (i x : ℕ) (hidx : i < d.length) :
    chron (pushSample ⟨d, i⟩ x) = (chron ⟨d, i⟩).tail ++ [x] := by
  set A := d.take i with hA
  set B := d.drop (i + 1) with hB
  have hAl : A.length = i := by
    rw [hA, List.length_take]
    omega
  have hdrop : d.drop i = d.get ⟨i, hidx⟩ :: B := by
    rw [List.get_eq_getElem, hB]
    exact List.drop_eq_getElem_cons hidx
  have hset : d.set i x = A ++ x :: B := List.set_eq_take_cons_drop x hidx
  have hchron : chron ⟨d, i⟩ = d.get ⟨i, hidx⟩ :: (B ++ A) := by
    show d.drop i ++ d.take i = _
    rw [hdrop, ← hA]
    simp
  have hlenB : d.length = i + 1 + B.length := by
    rw [hB, List.length_drop]
    omega
  by_cases hi : i + 1 < d.length
  · have hmod : (i + 1) % d.length = i + 1 := Nat.mod_eq_of_lt hi
    show (d.set i x).drop ((i + 1) % d.length) ++ (d.set i x).take ((i + 1) % d.length)
        = (chron ⟨d, i⟩).tail ++ [x]
    rw [hmod, hset, hchron]
    have h1 : (A ++ x :: B).drop (i + 1) = B := by
      have h := @List.drop_append ℕ A (x :: B) 1
      rw [hAl] at h
      simpa using h
    have h2 : (A ++ x :: B).take (i + 1) = A ++ [x] := by
      have h := @List.take_append ℕ A (x :: B) 1
      rw [hAl] at h
      simpa using h
    rw [h1, h2]
    simp
  · have hieq : i + 1 = d.length := by omega
    have hBnil : B = [] := List.eq_nil_of_length_eq_zero (by omega)
    have hmod : (i + 1) % d.length = 0 := by
      rw [hieq, Nat.mod_self]
    show (d.set i x).drop ((i + 1) % d.length) ++ (d.set i x).take ((i + 1) % d.length)
        = (chron ⟨d, i⟩).tail ++ [x]
    rw [hmod, hset, hchron, hBnil]
    simp

lemma pushAll_spec (C : ℕ) (hC : 0 < C) (xs : List ℕ) :
    (pushAll (emptyBuf C) xs).data.length = C ∧
    (pushAll (emptyBuf C) xs).idx = xs.length % C ∧
    chron (pushAll (emptyBuf C) xs)
      = (List.replicate (C - xs.length) 0 ++ xs).drop (xs.length - C) := by
  induction xs using List.reverseRecOn with
  | nil =>
    simp [pushAll, emptyBuf, chron]
  | append_singleton xs x ih =>
    obtain ⟨ih1, ih2, ih3⟩ := ih
    have hpush : pushAll (emptyBuf C) (xs ++ [x]) = pushSample (pushAll (emptyBuf C) xs) x := by
      rw [pushAll, List.foldl_append]
      rfl
    have hidx : (pushAll (emptyBuf C) xs).idx < (pushAll (emptyBuf C) xs).data.length := by
      rw [ih1, ih2]
      exact Nat.mod_lt _ hC
    have hcp : chron (pushSample (pushAll (emptyBuf C) xs) x)
        = (chron (pushAll (emptyBuf C) xs)).tail ++ [x] :=
      chron_push (pushAll (emptyBuf C) xs).data (pushAll (emptyBuf C) xs).idx x hidx
    refine ⟨?_, ?_, ?_⟩
    · rw [hpush]
      show ((pushAll (emptyBuf C) xs).data.set _ x).length = C
      rw [List.length_set, ih1]
    · rw [hpush]
      show ((pushAll (emptyBuf C) xs).idx + 1) % (pushAll (emptyBuf C) xs).data.length
          = (xs ++ [x]).length % C
      rw [ih1, ih2, Nat.mod_add_mod]
      simp
    · rw [hpush, hcp, ih3, List.tail_drop]
      by_cases hn : xs.length < C
      · rw [show xs.length - C = 0 from by omega,
          show C - xs.length = (C - (xs.length + 1)) + 1 from by omega,
          show (xs ++ [x]).length - C = 0 from by simp; omega,
          List.replicate_succ]
        simp [show C - (xs.length + 1) = C - ((xs ++ [x]).length) from by simp]
      · rw [show C - xs.length = 0 from by omega,
          show C - (xs ++ [x]).length = 0 from by simp; omega]
        simp only [List.replicate, List.nil_append]
        rw [List.drop_append_of_le_length (by simp; omega),
          show xs.length - C + 1 = (xs ++ [x]).length - C from by simp; omega]

/-- C7: a history buffer of capacity `C`, after recording `C + k` samples with
`k > 0`, contains in chronological order exactly the `C` most recent samples —
the oldest were overwritten first (FIFO) — and recording is total: the backing
array keeps its capacity and no error is raised on overwrite. -/
theorem C7_history_fifo (C k : ℕ) (xs : List ℕ) (hC : 0 < C) (hk : 0 < k)
    (hlen : xs.length = C + k) :
    chron (pushAll (emptyBuf C) xs) = xs.drop k ∧
    (pushAll (emptyBuf C) xs).data.length = C ∧
    (chron (pushAll (emptyBuf C) xs)).length = C := by
  obtain ⟨h1, h2, h3⟩ := pushAll_spec C hC xs
  refine ⟨?_, h1, ?_⟩
  · rw [h3, hlen, show C - (C + k) = 0 from by omega,
      show C + k - C = k from by omega]
    simp
  · rw [chron_length, h1]

theorem C7_history_fifo_witness :
    chron (pushAll (emptyBuf 3) [1, 2, 3, 4, 5]) = [3, 4, 5] := by
  have h := (C7_history_fifo 3 2 [1, 2, 3, 4, 5] (by decide) (by decide) (by decide)).1
  rw [h]
  rfl

end TaskMgr
